import Mathlib

/-!
Verification of the git_2_markdown repository (Python sources under `src/`).

This file is a shallow embedding of the file-discovery / tree-rendering engine
(`src/modules/file_discovery.py`), the document/chunk assembler
(`src/modules/markdown_generator.py`), and the per-file content resolution of the
orchestrator (`src/modules/converter.py` together with `src/modules/text_reader.py`).

Python strings are modelled as Lean `String`s, compared code-point-wise through
their character lists (`String.data`), matching Python's code-point lexicographic
order.  `str.lower` is modelled with `Char.toLower` (ASCII case folding, which
agrees with Python on all inputs used here).  Python `set`s of strings are
modelled as lists; every operation performed on them by the code is a pure
membership test or an order-insensitive boolean scan, so the list model is
faithful.  Python's stable `list.sort` is modelled by `List.insertionSort`
(also stable, hence extensionally equal on every input).
-/

/-- `sep.join(parts)` from Python: interleaves `sep` between the parts. -/
def joinSep (sep : String) : List String → String
  | [] => ""
  | [x] => x
  | x :: y :: rest => x ++ sep ++ joinSep sep (y :: rest)

/-- Concatenation of a list of strings (used to restate joins in proofs). -/
def concatAll : List String → String
  | [] => ""
  | x :: rest => x ++ concatAll rest

/-- Python `s.lower()` on the character list (ASCII case folding). -/
def lowerChars (s : String) : List Char :=
  s.data.map Char.toLower

/-- Python `s.lower()` returning a string. -/
def lowerStr (s : String) : String :=
  String.mk (lowerChars s)

/-- `s.startswith(pat)` over character lists. -/
def startsList : List Char → List Char → Bool
  | _, [] => true
  | [], _ :: _ => false
  | c :: cs, d :: ds => if c = d then startsList cs ds else false

/-- `s.endswith(pat)` over character lists. -/
def endsList (s pat : List Char) : Bool :=
  startsList s.reverse pat.reverse

/-- Python's `pathlib.PurePath.suffix`: the final component's last extension.
It is the substring from the last dot on, provided that dot is neither the
first nor the last character of the name; otherwise it is empty. -/
def pySuffix (name : String) : String :=
  let s := name.data
  if s.contains '.' then
    let i := s.length - 1 - (s.reverse.indexOf '.')
    if 0 < i ∧ i < s.length - 1 then String.mk (s.drop i) else ""
  else ""

/-- `file_path.suffix.lower()`. -/
def suffixLower (name : String) : String :=
  lowerStr (pySuffix name)

/-- Code-point lexicographic strict order on character lists: Python's `<`
on `str`. -/
def lexLt : List Char → List Char → Bool
  | [], [] => false
  | [], _ :: _ => true
  | _ :: _, [] => false
  | a :: as, b :: bs => if a < b then true else if b < a then false else lexLt as bs

/-- A directory tree entry: either a file or a directory with children, in
`iterdir` order. -/
inductive FSEntry where
  | file (name : String)
  | dir (name : String) (children : List FSEntry)

mutual

/-- Number of nodes of an entry (termination measure). -/
def entrySize : FSEntry → Nat
  | .file _ => 1
  | .dir _ ch => 1 + entriesSize ch

/-- Number of nodes of a list of entries. -/
def entriesSize : List FSEntry → Nat
  | [] => 0
  | e :: rest => entrySize e + entriesSize rest

end

/-- `DEFAULT_TEXT_EXTENSIONS` from `file_discovery.py`. -/
def DEFAULT_TEXT_EXTENSIONS : List String :=
  [".py", ".pyw", ".pyi", ".js", ".mjs", ".cjs", ".ts", ".tsx", ".mts", ".jsx",
   ".java", ".c", ".h", ".cpp", ".hpp", ".cc", ".hh", ".cs", ".go", ".rs",
   ".rb", ".php", ".swift", ".kt", ".kts", ".scala", ".r", ".R", ".lua",
   ".pl", ".pm", ".sh", ".bash", ".zsh", ".fish", ".ps1", ".psm1", ".bat",
   ".cmd", ".html", ".htm", ".xhtml", ".css", ".scss", ".sass", ".less",
   ".vue", ".svelte", ".json", ".jsonl", ".json5", ".yaml", ".yml", ".toml",
   ".xml", ".xsl", ".xslt", ".ini", ".cfg", ".conf", ".env", ".env.example",
   ".env.local", ".properties", ".md", ".markdown", ".mdx", ".rst", ".txt",
   ".text", ".adoc", ".asciidoc", ".dockerfile", ".makefile", ".cmake",
   ".gradle", ".tf", ".tfvars", ".sql", ".graphql", ".gql", ".proto", ".csv",
   ".tsv", ".gitignore", ".gitattributes", ".editorconfig", ".prettierrc",
   ".eslintrc"]

/-- `DEFAULT_INCLUDE_FILENAMES` from `file_discovery.py`. -/
def DEFAULT_INCLUDE_FILENAMES : List String :=
  ["Dockerfile", "Makefile", "Jenkinsfile", "Vagrantfile", "Procfile",
   "Gemfile", "Rakefile", "LICENSE", "CHANGELOG", "CONTRIBUTING", "AUTHORS",
   "CODEOWNERS", "README", ".gitignore", ".gitattributes", ".dockerignore",
   ".editorconfig", ".nvmrc", ".python-version", ".ruby-version",
   ".node-version"]

/-- `DEFAULT_EXCLUDE_DIRS` from `file_discovery.py`. -/
def DEFAULT_EXCLUDE_DIRS : List String :=
  [".git", ".svn", ".hg", ".bzr", "__pycache__", ".pytest_cache",
   ".mypy_cache", ".tox", ".nox", ".eggs", "*.egg-info", ".venv", "venv",
   "env", ".env", "node_modules", "bower_components", ".next", ".nuxt",
   "dist", "build", "target", ".idea", ".vscode", ".vs", "*.xcodeproj",
   "*.xcworkspace", ".gradle", ".cache", ".parcel-cache", "coverage",
   ".nyc_output", "htmlcov"]

/-- The rule state held by a `FileDiscovery` instance after `__init__`. -/
structure Rules where
  textExtensions : List String
  includeFilenames : List String
  excludeDirs : List String
  includePdf : Bool

/-- `FileDiscovery.__init__`: `x or DEFAULT` keeps the default whenever the
caller passes `None` or an empty (falsy) set; `custom_extensions` are added
when non-empty; `.pdf` is added when `include_pdf` is set. -/
def mkFileDiscovery (textExtensions includeFilenames excludeDirs : Option (List String))
    (includePdf : Bool) (customExtensions : Option (List String)) : Rules :=
  let pick : Option (List String) → List String → List String := fun o d =>
    match o with
    | none => d
    | some l => if l.isEmpty then d else l
  let te := pick textExtensions DEFAULT_TEXT_EXTENSIONS
  let te := match customExtensions with
    | some c => if c.isEmpty then te else te ++ c
    | none => te
  let te := if includePdf then te ++ [".pdf"] else te
  { textExtensions := te
    includeFilenames := pick includeFilenames DEFAULT_INCLUDE_FILENAMES
    excludeDirs := pick excludeDirs DEFAULT_EXCLUDE_DIRS
    includePdf := includePdf }

/-- Default rules (all arguments defaulted, PDF disabled). -/
def defaultRules : Rules :=
  mkFileDiscovery none none none false none

/-- `FileDiscovery._should_exclude_dir`. -/
def shouldExcludeDir (rules : Rules) (dirName : String) : Bool :=
  rules.excludeDirs.contains dirName ||
    rules.excludeDirs.any (fun pat =>
      pat.data.contains '*' &&
        ((startsList pat.data ['*'] && endsList dirName.data (pat.data.drop 1)) ||
         (endsList pat.data ['*'] && startsList dirName.data (pat.data.dropLast))))

/-- `FileDiscovery._is_text_file` (takes the base name of the path). -/
def isTextFile (rules : Rules) (name : String) : Bool :=
  rules.includeFilenames.contains name ||
    rules.textExtensions.contains (suffixLower name) ||
    (pySuffix name == "" && rules.includeFilenames.contains name)

/-- `FileDiscovery._is_pdf_file`. -/
def isPdfName (name : String) : Bool :=
  suffixLower name == ".pdf"

/-- The recursion of `FileDiscovery._walk_directory`, written with a fuel
counter so that it is structural (and hence kernel-computable); every
recursive call of the walk strictly decreases `entriesSize`, so any fuel
above `entriesSize` computes the full depth-first walk (`walkFuel_congr`
below proves the fuel does not matter once sufficient). -/
def walkFuel (rules : Rules) : Nat → List String → List FSEntry → List (List String)
  | 0, _, _ => []
  | fuel + 1, pre, l =>
    match l with
    | [] => []
    | FSEntry.file n :: rest => (pre ++ [n]) :: walkFuel rules fuel pre rest
    | FSEntry.dir n ch :: rest =>
        (if shouldExcludeDir rules n then [] else walkFuel rules fuel (pre ++ [n]) ch) ++
          walkFuel rules fuel pre rest

/-- `FileDiscovery._walk_directory`: depth-first walk in entry order, pruning
excluded directories entirely.  Paths are root-relative component lists. -/
def walkEntries (rules : Rules) (pre : List String) (l : List FSEntry) :
    List (List String) :=
  walkFuel rules (entriesSize l + 1) pre l

/-- Any two sufficient fuels compute the same walk. -/
theorem walkFuel_congr (rules : Rules) :
    ∀ (g h : Nat) (pre : List String) (l : List FSEntry),
      entriesSize l < g → entriesSize l < h →
      walkFuel rules g pre l = walkFuel rules h pre l := by
  intro g
  induction g with
  | zero => intro h pre l hg; omega
  | succ g' ih =>
    intro h pre l hg hh
    cases h with
    | zero => omega
    | succ h' =>
      cases l with
      | nil => rfl
      | cons e rest =>
        cases e with
        | file n =>
          have h1 : entriesSize rest < g' ∧ entriesSize rest < h' := by
            simp [entriesSize, entrySize] at hg hh
            omega
          simp only [walkFuel]
          rw [ih h' pre rest h1.1 h1.2]
        | dir n ch =>
          have h1 : entriesSize rest < g' ∧ entriesSize rest < h' := by
            simp [entriesSize, entrySize] at hg hh
            omega
          have h2 : entriesSize ch < g' ∧ entriesSize ch < h' := by
            simp [entriesSize, entrySize] at hg hh
            omega
          simp only [walkFuel]
          rw [ih h' pre rest h1.1 h1.2, ih h' (pre ++ [n]) ch h2.1 h2.2]

/-- Base name of a relative path (its last component). -/
def lastName (p : List String) : String :=
  p.getLastD ""

/-- The sort key of `discover_files`: `str(p.relative_to(root)).lower()`,
as a character list. -/
def fileKey (p : List String) : List Char :=
  lowerChars (joinSep "/" p)

/-- The readme test of `discover_files`: base name starts with "readme"
case-insensitively and the file sits at the root (relative depth 1). -/
def isRootReadme (p : List String) : Bool :=
  startsList (lowerChars (lastName p)) "readme".data && p.length == 1

/-- The accumulation loop of `FileDiscovery.discover_files`: separates a
provisional readme (preferring `README.md`) from the regular files. -/
def discoverLoop (rules : Rules) :
    List (List String) → Option (List String) → List (List String) →
      Option (List String) × List (List String)
  | [], readme, files => (readme, files)
  | p :: rest, readme, files =>
    if isRootReadme p then
      match readme with
      | none => discoverLoop rules rest (some p) files
      | some r =>
        if lowerStr (lastName p) == "readme.md" then discoverLoop rules rest (some p) files
        else discoverLoop rules rest (some r) (files ++ [p])
    else if isTextFile rules (lastName p) then discoverLoop rules rest readme (files ++ [p])
    else discoverLoop rules rest readme files

/-- The walk plus the accumulation loop of `discover_files`. -/
def discoverPass (rules : Rules) (root : List FSEntry) :
    Option (List String) × List (List String) :=
  discoverLoop rules (walkEntries rules [] root) none []

/-- `a` sorts no later than `b` under the `discover_files` sort key. -/
def keyLe (a b : List String) : Prop :=
  lexLt (fileKey b) (fileKey a) = false

instance : DecidableRel keyLe := fun a b =>
  inferInstanceAs (Decidable (lexLt (fileKey b) (fileKey a) = false))

/-- The tail of `discover_files`: sort the regular files by lower-cased
relative path and put the provisional readme first when present. -/
def assembleDiscover : Option (List String) × List (List String) → List (List String)
  | (some r, files) => r :: List.insertionSort keyLe files
  | (none, files) => List.insertionSort keyLe files

/-- `FileDiscovery.discover_files`. -/
def discover_files (rules : Rules) (root : List FSEntry) : List (List String) :=
  assembleDiscover (discoverPass rules root)

/-- Key component `not e.is_dir()` of the tree sort key (False sorts first). -/
def treeKeyNum : FSEntry → Nat
  | .dir _ _ => 0
  | .file _ => 1

/-- Name of an entry. -/
def entryName : FSEntry → String
  | .file n => n
  | .dir n _ => n

/-- The tree sort order: by `(not e.is_dir(), e.name.lower())`, tuples compared
lexicographically (a total preorder; ties keep `iterdir` order by stability). -/
def treeLeB (a b : FSEntry) : Bool :=
  if treeKeyNum a < treeKeyNum b then true
  else if treeKeyNum b < treeKeyNum a then false
  else !(lexLt (lowerChars (entryName b)) (lowerChars (entryName a)))

/-- Propositional form of `treeLeB`. -/
def treeLe (a b : FSEntry) : Prop :=
  treeLeB a b = true

instance : DecidableRel treeLe := fun a b =>
  inferInstanceAs (Decidable (treeLeB a b = true))

/-- `_build_tree`'s entry preparation: sort by the tuple key, then drop
excluded directories (files are always kept at this stage). -/
def treeEntries (rules : Rules) (children : List FSEntry) : List FSEntry :=
  (List.insertionSort treeLe children).filter (fun e =>
    match e with
    | .dir n _ => !(shouldExcludeDir rules n)
    | .file _ => true)

/-- `max_depth is not None and current_depth >= max_depth`. -/
def stopAtDepth (maxD : Option Nat) (depth : Nat) : Bool :=
  match maxD with
  | some d => d ≤ depth
  | none => false

/-- The guard under which `_build_tree` prints a file line. -/
def showFile (rules : Rules) (name : String) : Bool :=
  isTextFile rules name || (rules.includePdf && isPdfName name)

/-- `entriesSize` distributes as a sum of `entrySize`. -/
theorem entriesSize_eq_sum : ∀ l : List FSEntry, entriesSize l = (l.map entrySize).sum
  | [] => by simp [entriesSize]
  | e :: rest => by simp [entriesSize, entriesSize_eq_sum rest]

/-- Permuting entries preserves their total size. -/
theorem entriesSize_perm {l₁ l₂ : List FSEntry} (h : l₁.Perm l₂) :
    entriesSize l₁ = entriesSize l₂ := by
  rw [entriesSize_eq_sum, entriesSize_eq_sum]
  exact (h.map entrySize).sum_eq

/-- Every entry has positive size. -/
theorem entrySize_pos : ∀ e : FSEntry, 0 < entrySize e
  | .file _ => by simp [entrySize]
  | .dir _ _ => by simp [entrySize]

/-- Filtering entries cannot increase their total size. -/
theorem entriesSize_filter_le (p : FSEntry → Bool) :
    ∀ l : List FSEntry, entriesSize (l.filter p) ≤ entriesSize l
  | [] => Nat.le_refl _
  | e :: rest => by
    have ih := entriesSize_filter_le p rest
    have hpos := entrySize_pos e
    cases hp : p e <;> simp [List.filter_cons, hp, entriesSize] <;> omega

/-- The prepared entries of `_build_tree` are no larger than the raw children. -/
theorem entriesSize_treeEntries_le (rules : Rules) (children : List FSEntry) :
    entriesSize (treeEntries rules children) ≤ entriesSize children := by
  calc entriesSize (treeEntries rules children)
      ≤ entriesSize (List.insertionSort treeLe children) :=
        entriesSize_filter_le _ _
    _ = entriesSize children := entriesSize_perm (List.perm_insertionSort treeLe children)

mutual

/-- `FileDiscovery._build_tree`: returns the lines appended for one directory's
contents (the caller supplies the accumulated ancestor indentation). -/
def buildTree (rules : Rules) (maxD : Option Nat) :
    List FSEntry → String → Nat → List String
  | children, pre, depth =>
    if stopAtDepth maxD depth then []
    else renderRow rules maxD (treeEntries rules children) pre depth
termination_by children _ _ => 2 * entriesSize children + 1
decreasing_by
  have := entriesSize_treeEntries_le rules children; omega

/-- The `for i, entry in enumerate(entries)` loop of `_build_tree`; the last
entry gets the `└── ` connector, earlier ones `├── `. -/
def renderRow (rules : Rules) (maxD : Option Nat) :
    List FSEntry → String → Nat → List String
  | [], _, _ => []
  | [FSEntry.dir n ch], pre, depth =>
      (pre ++ "└── " ++ n ++ "/") :: buildTree rules maxD ch (pre ++ "    ") (depth + 1)
  | FSEntry.dir n ch :: e :: rest, pre, depth =>
      ((pre ++ "├── " ++ n ++ "/") :: buildTree rules maxD ch (pre ++ "│   ") (depth + 1)) ++
        renderRow rules maxD (e :: rest) pre depth
  | [FSEntry.file n], pre, _ =>
      if showFile rules n then [pre ++ "└── " ++ n] else []
  | FSEntry.file n :: e :: rest, pre, depth =>
      (if showFile rules n then [pre ++ "├── " ++ n] else []) ++
        renderRow rules maxD (e :: rest) pre depth
termination_by l _ _ => 2 * entriesSize l
decreasing_by
  · simp [entriesSize, entrySize]; omega
  · simp [entriesSize, entrySize]; omega
  · simp [entriesSize, entrySize]
  · simp [entriesSize, entrySize]

end

/-- `FileDiscovery.generate_tree` as its list of lines: the root name plus the
recursive rendering. -/
def treeLines (rules : Rules) (maxD : Option Nat) (rootName : String)
    (children : List FSEntry) : List String :=
  (rootName ++ "/") :: buildTree rules maxD children "" 0

/-- `FileDiscovery.generate_tree`: the lines joined with newlines. -/
def generate_tree (rules : Rules) (maxD : Option Nat) (rootName : String)
    (children : List FSEntry) : String :=
  joinSep "\n" (treeLines rules maxD rootName children)

/-- `FileContent` from `markdown_generator.py` (`path` kept as its base name,
which is all `_format_file` uses of it). -/
structure FileContent where
  name : String
  relative_path : String
  content : String
  language : String
  is_pdf : Bool

/-- The `MarkdownGenerator` state once files and tree are set
(`max_tree_depth` is stored but never read by generation). -/
structure MarkdownGenerator where
  repo_name : String
  include_tree : Bool
  include_toc : Bool
  tree : String
  files : List FileContent

/-- One pass of Python's `anchor.replace("--", "-")` (left-to-right,
non-overlapping). -/
def replacePairDash : List Char → List Char
  | [] => []
  | [c] => [c]
  | c :: d :: rest =>
    if c = '-' ∧ d = '-' then '-' :: replacePairDash rest
    else c :: replacePairDash (d :: rest)

/-- `"--" in anchor`. -/
def hasDD : List Char → Bool
  | [] => false
  | [_] => false
  | c :: d :: rest => (c = '-' && d = '-') || hasDD (d :: rest)

/-- A replacement pass never lengthens the list. -/
theorem replacePairDash_length_le : ∀ l : List Char, (replacePairDash l).length ≤ l.length
  | [] => by simp [replacePairDash]
  | [c] => by simp [replacePairDash]
  | c :: d :: rest => by
    have h1 := replacePairDash_length_le rest
    have h2 := replacePairDash_length_le (d :: rest)
    simp only [List.length_cons] at h2
    simp only [replacePairDash]
    split <;> simp only [List.length_cons] <;> omega

/-- A replacement pass strictly shortens the list when `--` occurs in it. -/
theorem replacePairDash_length_lt :
    ∀ l : List Char, hasDD l = true → (replacePairDash l).length < l.length
  | [] => by simp [hasDD]
  | [c] => by simp [hasDD]
  | c :: d :: rest => by
    intro h
    simp only [hasDD, Bool.or_eq_true, Bool.and_eq_true, decide_eq_true_eq] at h
    simp only [replacePairDash]
    split
    · have := replacePairDash_length_le rest
      simp; omega
    · rename_i hnot
      have hdd : hasDD (d :: rest) = true := by
        rcases h with ⟨h1, h2⟩ | h
        · exact absurd ⟨h1, h2⟩ hnot
        · exact h
      have := replacePairDash_length_lt (d :: rest) hdd
      simp at this ⊢
      omega

/-- The `while "--" in anchor` loop of `_create_anchor`. -/
def collapseDashes (l : List Char) : List Char :=
  if h : hasDD l = true then collapseDashes (replacePairDash l) else l
termination_by l.length
decreasing_by exact replacePairDash_length_lt l h

/-- `MarkdownGenerator._create_anchor`. -/
def createAnchor (text : String) : String :=
  let a := lowerChars text
  let a := a.map (fun c => if c.isAlphanum || c == '-' then c else '-')
  let a := collapseDashes a
  String.mk (((a.dropWhile (· == '-')).reverse.dropWhile (· == '-')).reverse)

/-- `MarkdownGenerator._format_file`.  The Python source has an
`if language == "markdown"` branch whose two arms are identical; it is kept. -/
def formatFile (fc : FileContent) : String :=
  let lines := ["### " ++ fc.name, "**Path:** `" ++ fc.relative_path ++ "`"]
  let lines := if fc.is_pdf then lines ++ ["**Type:** PDF (extracted text)"] else lines
  let lines := lines ++ [""]
  let lang := if fc.language != "" then fc.language else ""
  let lines := if fc.language == "markdown"
    then lines ++ ["```" ++ lang, fc.content, "```"]
    else lines ++ ["```" ++ lang, fc.content, "```"]
  joinSep "\n" lines

/-- A file's block as appended by `generate_chunked`: `_format_file` plus a
trailing newline. -/
def fmBlock (fc : FileContent) : String :=
  formatFile fc ++ "\n"

/-- `MarkdownGenerator._generate_title`. -/
def titleSection (g : MarkdownGenerator) : String :=
  "# Repository: " ++ g.repo_name

/-- `MarkdownGenerator._generate_tree_section`. -/
def treeSection (g : MarkdownGenerator) : String :=
  joinSep "\n" ["## Repository Structure", "", "```", g.tree, "```"]

/-- `MarkdownGenerator._generate_toc`. -/
def tocSection (g : MarkdownGenerator) : String :=
  joinSep "\n" (["## Table of Contents", ""] ++
    g.files.map (fun fc =>
      "- [" ++ fc.relative_path ++ "](#" ++ createAnchor fc.relative_path ++ ")"))

/-- The header sections shared by `generate` and `generate_chunked`:
title, optional tree, optional table of contents. -/
def headerSections (g : MarkdownGenerator) : List String :=
  [titleSection g] ++
    (if g.include_tree && g.tree != "" then [treeSection g] else []) ++
    (if g.include_toc then [tocSection g] else [])

/-- `MarkdownGenerator._generate_files_section`. -/
def filesSection (g : MarkdownGenerator) : String :=
  joinSep "\n" (["## File Contents", ""] ++
    (g.files.map (fun fc => [formatFile fc, ""])).flatten)

/-- `MarkdownGenerator.generate`. -/
def generate (g : MarkdownGenerator) : String :=
  joinSep "\n\n" (headerSections g ++ [filesSection g])

/-- The `header_with_section` seed of chunk 1 in `generate_chunked`. -/
def headerWithSection (g : MarkdownGenerator) : String :=
  joinSep "\n\n" (headerSections g) ++ "\n\n## File Contents\n"

/-- The continuation header seeding later chunks in `generate_chunked`. -/
def continuationHeader (g : MarkdownGenerator) : String :=
  "# Repository: " ++ g.repo_name ++ " (continued)\n\n## File Contents (continued)\n"

/-- The mutable loop state of `generate_chunked`: closed chunks, current
chunk parts, and the tracked size counter. -/
structure ChunkSt where
  chunks : List String
  parts : List String
  size : Nat

/-- One iteration of the `for file_content in self._files` loop of
`generate_chunked`. -/
def chunkStep (g : MarkdownGenerator) (maxChars hwsLen : Nat) (st : ChunkSt)
    (fc : FileContent) : ChunkSt :=
  let fm := fmBlock fc
  let fsz := fm.length
  let st1 :=
    if maxChars < st.size + fsz ∧ st.parts ≠ [] then
      { chunks :=
          if 1 < st.parts.length ∨ hwsLen < st.size then
            st.chunks ++ [joinSep "\n" st.parts]
          else st.chunks
        parts := [continuationHeader g]
        size := (continuationHeader g).length }
    else st
  { st1 with parts := st1.parts ++ [fm], size := st1.size + fsz }

/-- `MarkdownGenerator.generate_chunked`. -/
def generate_chunked (g : MarkdownGenerator) (maxChars : Nat) : List String :=
  let hws := headerWithSection g
  let fin := g.files.foldl (chunkStep g maxChars hws.length) ⟨[], [hws], hws.length⟩
  if fin.parts ≠ [] then fin.chunks ++ [joinSep "\n" fin.parts] else fin.chunks

/-- `LANGUAGE_MAP` from `text_reader.py`. -/
def LANGUAGE_MAP : List (String × String) :=
  [(".py", "python"), (".pyw", "python"), (".pyi", "python"),
   (".js", "javascript"), (".mjs", "javascript"), (".cjs", "javascript"),
   (".jsx", "jsx"), (".ts", "typescript"), (".tsx", "tsx"),
   (".mts", "typescript"), (".html", "html"), (".htm", "html"),
   (".xhtml", "html"), (".css", "css"), (".scss", "scss"), (".sass", "sass"),
   (".less", "less"), (".vue", "vue"), (".svelte", "svelte"),
   (".json", "json"), (".jsonl", "json"), (".json5", "json5"),
   (".yaml", "yaml"), (".yml", "yaml"), (".toml", "toml"), (".xml", "xml"),
   (".xsl", "xml"), (".xslt", "xml"), (".sh", "bash"), (".bash", "bash"),
   (".zsh", "zsh"), (".fish", "fish"), (".ps1", "powershell"),
   (".psm1", "powershell"), (".bat", "batch"), (".cmd", "batch"),
   (".java", "java"), (".c", "c"), (".h", "c"), (".cpp", "cpp"),
   (".hpp", "cpp"), (".cc", "cpp"), (".hh", "cpp"), (".cs", "csharp"),
   (".go", "go"), (".rs", "rust"), (".rb", "ruby"), (".php", "php"),
   (".swift", "swift"), (".kt", "kotlin"), (".kts", "kotlin"),
   (".scala", "scala"), (".r", "r"), (".R", "r"), (".lua", "lua"),
   (".pl", "perl"), (".pm", "perl"), (".md", "markdown"),
   (".markdown", "markdown"), (".mdx", "mdx"), (".rst", "rst"),
   (".txt", "text"), (".text", "text"), (".adoc", "asciidoc"),
   (".asciidoc", "asciidoc"), (".ini", "ini"), (".cfg", "ini"),
   (".conf", "ini"), (".env", "dotenv"), (".properties", "properties"),
   (".dockerfile", "dockerfile"), (".makefile", "makefile"),
   (".cmake", "cmake"), (".gradle", "gradle"), (".tf", "terraform"),
   (".tfvars", "terraform"), (".sql", "sql"), (".graphql", "graphql"),
   (".gql", "graphql"), (".proto", "protobuf"), (".csv", "csv"),
   (".tsv", "tsv"), (".gitignore", "gitignore")]

/-- `FILENAME_LANGUAGE_MAP` from `text_reader.py`. -/
def FILENAME_LANGUAGE_MAP : List (String × String) :=
  [("Dockerfile", "dockerfile"), ("Makefile", "makefile"),
   ("Jenkinsfile", "groovy"), ("Vagrantfile", "ruby"), ("Procfile", "yaml"),
   ("Gemfile", "ruby"), ("Rakefile", "ruby"), (".gitignore", "gitignore"),
   (".gitattributes", "gitattributes"), (".dockerignore", "dockerignore"),
   (".editorconfig", "editorconfig")]

/-- Dictionary lookup on an association list. -/
def lookupMap (m : List (String × String)) (k : String) : Option String :=
  (m.find? (fun p => p.1 == k)).map (fun p => p.2)

/-- Substring membership (`sub in s` on Python strings). -/
def hasSub (sub : List Char) : List Char → Bool
  | [] => sub.isEmpty
  | c :: rest => startsList (c :: rest) sub || hasSub sub rest

/-- A file as seen by the orchestrator.  The fields `statOk`, `readResult`,
`pdfExtract` and `mimeGuess` model the outcomes of the I/O collaborators
(the stat call, the encoding-fallback chain of `TextReader.read_file`, the
`PDFReader.read_pdf_safe` extraction, and `mimetypes.guess_type`), which the
spec treats as external interfaces. -/
structure SrcFile where
  name : String
  fexists : Bool
  isFile : Bool
  statOk : Bool
  size : Nat
  readResult : String
  pdfExtract : String
  mimeGuess : Option String

/-- `TextReader.read_file`: the existence/type guards, then the size guard
with its placeholder, then the encoding chain. -/
def read_file (maxFileSize : Option Nat) (f : SrcFile) : Option String :=
  if !f.fexists then none
  else if !f.isFile then none
  else
    match maxFileSize with
    | some m =>
      if !f.statOk then none
      else if m < f.size then some ("[File too large: " ++ toString f.size ++ " bytes]")
      else some f.readResult
    | none => some f.readResult

/-- `TextReader.get_language_identifier`. -/
def get_language_identifier (f : SrcFile) : String :=
  match lookupMap FILENAME_LANGUAGE_MAP f.name with
  | some l => l
  | none =>
    match lookupMap LANGUAGE_MAP (suffixLower f.name) with
    | some l => l
    | none =>
      match f.mimeGuess with
      | some mt =>
        if hasSub "python".data mt.data then "python"
        else if hasSub "javascript".data mt.data then "javascript"
        else if hasSub "json".data mt.data then "json"
        else if hasSub "xml".data mt.data then "xml"
        else if hasSub "html".data mt.data then "html"
        else if hasSub "css".data mt.data then "css"
        else ""
      | none => ""

/-- The per-file content resolution of `GitToMarkdownConverter.convert`
(the body of its `for file_path in files` loop): PDFs go to the extraction
collaborator when a PDF reader is present (`_pdf_reader` is constructed iff
`config.include_pdf`), everything else to `TextReader.read_file` with the
`[Failed to read file]` fallback for a `None` result. -/
def resolveFile (maxFileSize : Option Nat) (pdfReaderPresent : Bool)
    (f : SrcFile) (relPath : String) : FileContent :=
  let is_pdf := suffixLower f.name == ".pdf"
  if is_pdf && pdfReaderPresent then
    { name := f.name, relative_path := relPath, content := f.pdfExtract,
      language := "markdown", is_pdf := is_pdf }
  else
    let content :=
      match read_file maxFileSize f with
      | some c => c
      | none => "[Failed to read file]"
    { name := f.name, relative_path := relPath, content := content,
      language := get_language_identifier f, is_pdf := is_pdf }


/-- Appending the empty string on the right. -/
theorem str_append_empty : ∀ s : String, s ++ "" = s
  | ⟨d⟩ => congrArg String.mk (List.append_nil d)

/-- Appending the empty string on the left. -/
theorem str_empty_append : ∀ s : String, "" ++ s = s
  | ⟨_⟩ => rfl

/-- String concatenation is associative. -/
theorem str_append_assoc : ∀ a b c : String, a ++ b ++ c = a ++ (b ++ c)
  | ⟨x⟩, ⟨y⟩, ⟨z⟩ => congrArg String.mk (List.append_assoc x y z)

/-- `concatAll` distributes over list append. -/
theorem concatAll_append : ∀ l₁ l₂ : List String,
    concatAll (l₁ ++ l₂) = concatAll l₁ ++ concatAll l₂
  | [], _ => (str_empty_append _).symm
  | x :: rest, l₂ => by
    show x ++ concatAll (rest ++ l₂) = x ++ concatAll rest ++ concatAll l₂
    rw [concatAll_append rest l₂, str_append_assoc]

/-- A join is its head followed by each further part with the separator in
front. -/
theorem joinSep_cons (sep x : String) :
    ∀ l : List String, joinSep sep (x :: l) = x ++ concatAll (l.map (fun s => sep ++ s))
  | [] => by simp [joinSep, concatAll, str_append_empty]
  | y :: rest => by
    show x ++ sep ++ joinSep sep (y :: rest)
        = x ++ concatAll ((sep ++ y) :: rest.map (fun s => sep ++ s))
    rw [joinSep_cons sep y rest]
    show x ++ sep ++ (y ++ concatAll (rest.map (fun s => sep ++ s)))
        = x ++ ((sep ++ y) ++ concatAll (rest.map (fun s => sep ++ s)))
    simp [str_append_assoc]

/-- Joining a non-empty list with one extra element at the end. -/
theorem joinSep_append_one (sep x : String) :
    ∀ l : List String, l ≠ [] → joinSep sep (l ++ [x]) = joinSep sep l ++ sep ++ x
  | [], h => absurd rfl h
  | [y], _ => by simp [joinSep]
  | y :: z :: rest, _ => by
    have ih := joinSep_append_one sep x (z :: rest) (by simp)
    show y ++ sep ++ joinSep sep ((z :: rest) ++ [x])
        = y ++ sep ++ joinSep sep (z :: rest) ++ sep ++ x
    rw [ih]
    simp [str_append_assoc]

/-- The total length of a concatenation. -/
theorem concatAll_length : ∀ l : List String,
    (concatAll l).length = (l.map String.length).sum
  | [] => rfl
  | x :: rest => by
    simp [concatAll, String.length_append, concatAll_length rest]

/-- The bodies of the file blocks of a group as they appear inside a chunk:
each block preceded by the joining newline. -/
def blocksBody (grp : List FileContent) : String :=
  concatAll (grp.map (fun fc => "\n" ++ fmBlock fc))

/-- A chunk as `generate_chunked` assembles it: a header followed by the
blocks of its group. -/
def chunkOf (hd : String) (grp : List FileContent) : String :=
  hd ++ blocksBody grp

/-- `"\n".flatten` of a header and file blocks is `chunkOf`. -/
theorem joinSep_chunkOf (hd : String) (grp : List FileContent) :
    joinSep "\n" (hd :: grp.map fmBlock) = chunkOf hd grp := by
  rw [joinSep_cons, List.map_map]
  rfl

/-- `blocksBody` over a concatenation of groups. -/
theorem blocksBody_append (l₁ l₂ : List FileContent) :
    blocksBody (l₁ ++ l₂) = blocksBody l₁ ++ blocksBody l₂ := by
  simp only [blocksBody, List.map_append, concatAll_append]

/-- Concatenating the bodies of a partition gives the body of the flattened
file list. -/
theorem concat_blocksBody_flatten : ∀ part : List (List FileContent),
    concatAll (part.map blocksBody) = blocksBody part.flatten
  | [] => rfl
  | grp :: rest => by
    show blocksBody grp ++ concatAll (rest.map blocksBody)
        = blocksBody (grp ++ rest.flatten)
    rw [concat_blocksBody_flatten rest, blocksBody_append]

/-- The per-file line pairs of `_generate_files_section`. -/
def fileLines (l : List FileContent) : List String :=
  (l.map (fun fc => [formatFile fc, ""])).flatten

/-- Joining the blank line and the per-file line pairs yields the blocks'
bodies. -/
theorem joinSep_fileLines : ∀ l : List FileContent,
    joinSep "\n" ("" :: fileLines l) = blocksBody l
  | [] => rfl
  | fc :: rest => by
    show joinSep "\n" ("" :: formatFile fc :: "" :: fileLines rest)
        = blocksBody (fc :: rest)
    have ih := joinSep_fileLines rest
    show "" ++ "\n" ++ (formatFile fc ++ "\n" ++ joinSep "\n" ("" :: fileLines rest))
        = blocksBody (fc :: rest)
    rw [ih]
    show "" ++ "\n" ++ (formatFile fc ++ "\n" ++ blocksBody rest)
        = ("\n" ++ (formatFile fc ++ "\n")) ++ blocksBody rest
    simp [str_append_assoc, str_empty_append]

/-- The files section is the heading followed by the blocks' bodies. -/
theorem filesSection_eq (g : MarkdownGenerator) :
    filesSection g = "## File Contents\n" ++ blocksBody g.files := by
  show joinSep "\n" ("## File Contents" :: "" :: fileLines g.files)
      = "## File Contents\n" ++ blocksBody g.files
  show "## File Contents" ++ "\n" ++ joinSep "\n" ("" :: fileLines g.files)
      = "## File Contents\n" ++ blocksBody g.files
  rw [joinSep_fileLines]
  rw [show "## File Contents" ++ "\n" = "## File Contents\n" from rfl]

/-- `generate` in the form `generate_chunked` produces when nothing splits:
the chunk-1 header followed by every file block, newline-joined. -/
theorem generate_eq_join (g : MarkdownGenerator) :
    generate g = joinSep "\n" (headerWithSection g :: g.files.map fmBlock) := by
  rw [joinSep_chunkOf]
  unfold generate headerWithSection chunkOf
  rw [joinSep_append_one _ _ (headerSections g) (by simp [headerSections])]
  rw [filesSection_eq]
  rw [show joinSep "\n\n" (headerSections g) ++ "\n\n## File Contents\n"
        = joinSep "\n\n" (headerSections g) ++ ("\n\n" ++ "## File Contents\n") from rfl]
  simp only [str_append_assoc]

/-- A chunk is some header (main or continuation) followed by the blocks of
its group of files. -/
def bodyRel (g : MarkdownGenerator) (c : String) (grp : List FileContent) : Prop :=
  c = chunkOf (headerWithSection g) grp ∨ c = chunkOf (continuationHeader g) grp

/-- `Forall₂` is preserved by appending one related pair. -/
theorem forall2_append_one {α β : Type} {R : α → β → Prop} :
    ∀ {l₁ : List α} {l₂ : List β} {a : α} {b : β},
      List.Forall₂ R l₁ l₂ → R a b → List.Forall₂ R (l₁ ++ [a]) (l₂ ++ [b])
  | _, _, _, _, List.Forall₂.nil, hab => List.Forall₂.cons hab List.Forall₂.nil
  | _, _, _, _, List.Forall₂.cons hxy h, hab =>
    List.Forall₂.cons hxy (forall2_append_one h hab)

/-- Loop invariant of `generate_chunked`: the closed chunks realise a prefix
partition of the processed files, the current parts are one header plus the
blocks of the current group, and a header-only current chunk can only be the
initial one. -/
def ChunkInv (g : MarkdownGenerator) (processed : List FileContent) (st : ChunkSt) : Prop :=
  ∃ done cur hd,
    st.parts = hd :: cur.map fmBlock ∧
    (hd = headerWithSection g ∨ hd = continuationHeader g) ∧
    List.Forall₂ (bodyRel g) st.chunks done ∧
    done.flatten ++ cur = processed ∧
    (cur = [] → hd = headerWithSection g ∧ st.size = (headerWithSection g).length ∧
      st.chunks = [])

/-- `chunkStep` when the size check does not fire: the block is appended to
the current chunk. -/
theorem chunkStep_eq_append (g : MarkdownGenerator) (m hwsLen : Nat) (st : ChunkSt)
    (fc : FileContent) (h : ¬(m < st.size + (fmBlock fc).length ∧ st.parts ≠ [])) :
    chunkStep g m hwsLen st fc =
      ⟨st.chunks, st.parts ++ [fmBlock fc], st.size + (fmBlock fc).length⟩ := by
  simp only [chunkStep]
  rw [if_neg h]

/-- `chunkStep` when the size check fires and the current chunk holds more
than the bare header: the chunk is closed and a continuation chunk starts. -/
theorem chunkStep_eq_push (g : MarkdownGenerator) (m hwsLen : Nat) (st : ChunkSt)
    (fc : FileContent) (h1 : m < st.size + (fmBlock fc).length ∧ st.parts ≠ [])
    (h2 : 1 < st.parts.length ∨ hwsLen < st.size) :
    chunkStep g m hwsLen st fc =
      ⟨st.chunks ++ [joinSep "\n" st.parts],
       [continuationHeader g, fmBlock fc],
       (continuationHeader g).length + (fmBlock fc).length⟩ := by
  simp only [chunkStep]
  rw [if_pos h1, if_pos h2]
  rfl

/-- `chunkStep` when the size check fires on a bare-header chunk: the current
chunk is dropped and replaced by a continuation chunk. -/
theorem chunkStep_eq_drop (g : MarkdownGenerator) (m hwsLen : Nat) (st : ChunkSt)
    (fc : FileContent) (h1 : m < st.size + (fmBlock fc).length ∧ st.parts ≠ [])
    (h2 : ¬(1 < st.parts.length ∨ hwsLen < st.size)) :
    chunkStep g m hwsLen st fc =
      ⟨st.chunks,
       [continuationHeader g, fmBlock fc],
       (continuationHeader g).length + (fmBlock fc).length⟩ := by
  simp only [chunkStep]
  rw [if_pos h1, if_neg h2]
  rfl

/-- One `generate_chunked` iteration preserves the loop invariant. -/
theorem chunkStep_inv (g : MarkdownGenerator) (m : Nat) (proc : List FileContent)
    (st : ChunkSt) (fc : FileContent) (h : ChunkInv g proc st) :
    ChunkInv g (proc ++ [fc]) (chunkStep g m (headerWithSection g).length st fc) := by
  obtain ⟨done, cur, hd, hparts, hhd, hchunks, hjoin, hbare⟩ := h
  by_cases hov : m < st.size + (fmBlock fc).length
  · have hcond : m < st.size + (fmBlock fc).length ∧ st.parts ≠ [] :=
      ⟨hov, by rw [hparts]; exact List.cons_ne_nil _ _⟩
    cases cur with
    | nil =>
      obtain ⟨hhw, hsz, hch⟩ := hbare rfl
      have hlen : ¬(1 < st.parts.length ∨ (headerWithSection g).length < st.size) := by
        rw [hparts, hsz]
        simp
      rw [chunkStep_eq_drop g m _ st fc hcond hlen]
      have hdone : done = [] := by
        rw [hch] at hchunks
        cases hchunks
        rfl
      refine ⟨[], [fc], continuationHeader g, by simp, Or.inr rfl, ?_, ?_, by simp⟩
      · rw [hch]
        exact List.Forall₂.nil
      · rw [hdone] at hjoin
        simp only [List.flatten_nil, List.nil_append, List.append_nil] at hjoin
        simp [← hjoin]
    | cons c0 cs =>
      have hlen : 1 < st.parts.length ∨ (headerWithSection g).length < st.size := by
        left
        rw [hparts]
        simp
      rw [chunkStep_eq_push g m _ st fc hcond hlen]
      refine ⟨done ++ [c0 :: cs], [fc], continuationHeader g, by simp, Or.inr rfl, ?_, ?_,
        by simp⟩
      · refine forall2_append_one hchunks ?_
        show bodyRel g (joinSep "\n" st.parts) (c0 :: cs)
        rw [hparts, joinSep_chunkOf]
        rcases hhd with h1 | h1
        · exact Or.inl (by rw [h1])
        · exact Or.inr (by rw [h1])
      · rw [List.flatten_append]
        simp only [List.flatten_cons, List.flatten_nil, List.append_nil]
        simp [← hjoin]
  · rw [chunkStep_eq_append g m _ st fc (by intro hc; exact hov hc.1)]
    refine ⟨done, cur ++ [fc], hd, ?_, hhd, hchunks, ?_, by simp⟩
    · rw [hparts]
      simp
    · rw [← List.append_assoc, hjoin]

/-- The whole `generate_chunked` loop preserves the invariant. -/
theorem chunkFold_inv (g : MarkdownGenerator) (m : Nat) :
    ∀ (files proc : List FileContent) (st : ChunkSt), ChunkInv g proc st →
      ChunkInv g (proc ++ files)
        (files.foldl (chunkStep g m (headerWithSection g).length) st) := by
  intro files
  induction files with
  | nil => intro proc st h; simpa using h
  | cons fc rest ih =>
    intro proc st h
    have h1 := chunkStep_inv g m proc st fc h
    have h2 := ih (proc ++ [fc]) _ h1
    simpa using h2

/-- Claim C3: for every generator state and every `maxChars`, the chunks of
`generate_chunked` realise a partition of the file list into consecutive
groups: every chunk is one header (the main one or the continuation one)
followed by the formatted blocks of its group, whole and in order, so no
file's block is split across chunks; the concatenation of the chunks minus
their headers is `blocksBody` of the full file list, which is exactly what
follows the `## File Contents` heading in the unsplit `generate` output. -/
theorem claim_C3_chunk_partition (g : MarkdownGenerator) (m : Nat) :
    ∃ part : List (List FileContent),
      part.flatten = g.files ∧
      List.Forall₂ (bodyRel g) (generate_chunked g m) part ∧
      concatAll (part.map blocksBody) = blocksBody g.files ∧
      generate g = headerWithSection g ++ blocksBody g.files := by
  have h0 : ChunkInv g []
      ⟨[], [headerWithSection g], (headerWithSection g).length⟩ :=
    ⟨[], [], headerWithSection g, rfl, Or.inl rfl, List.Forall₂.nil, rfl,
      fun _ => ⟨rfl, rfl, rfl⟩⟩
  have hf := chunkFold_inv g m g.files [] _ h0
  simp only [List.nil_append] at hf
  obtain ⟨done, cur, hd, hparts, hhd, hchunks, hjoin, _⟩ := hf
  have hout : generate_chunked g m =
      (g.files.foldl (chunkStep g m (headerWithSection g).length)
          ⟨[], [headerWithSection g], (headerWithSection g).length⟩).chunks ++
        [chunkOf hd cur] := by
    simp only [generate_chunked]
    rw [if_pos (by rw [hparts]; exact List.cons_ne_nil _ _)]
    rw [hparts, joinSep_chunkOf]
  refine ⟨done ++ [cur], ?_, ?_, ?_, ?_⟩
  · rw [List.flatten_append]
    simpa using hjoin
  · rw [hout]
    refine forall2_append_one hchunks ?_
    rcases hhd with h1 | h1
    · exact Or.inl (by rw [h1])
    · exact Or.inr (by rw [h1])
  · rw [concat_blocksBody_flatten, List.flatten_append]
    simp only [List.flatten_cons, List.flatten_nil, List.append_nil]
    rw [hjoin]
  · rw [generate_eq_join, joinSep_chunkOf]
    rfl

/-- The no-split invariant used for the round-trip claim: while the limit is
never hit, everything stays in the first chunk. -/
def NoSplitInv (g : MarkdownGenerator) (processed : List FileContent) (st : ChunkSt) : Prop :=
  st.chunks = [] ∧
  st.parts = headerWithSection g :: processed.map fmBlock ∧
  st.size = (headerWithSection g).length + ((processed.map fmBlock).map String.length).sum

/-- The length of the whole document, block by block. -/
theorem len_newline_map : ∀ l : List String,
    ((l.map (fun s => "\n" ++ s)).map String.length).sum =
      (l.map (fun b => 1 + b.length)).sum
  | [] => rfl
  | x :: rest => by
    simp only [List.map_cons, List.sum_cons, String.length_append,
      len_newline_map rest]
    rw [show ("\n" : String).length = 1 from rfl]

/-- The length of the whole document, block by block. -/
theorem generate_length (g : MarkdownGenerator) :
    (generate g).length =
      (headerWithSection g).length +
        ((g.files.map fmBlock).map (fun b => 1 + b.length)).sum := by
  rw [generate_eq_join, joinSep_cons, String.length_append, concatAll_length,
    len_newline_map]

/-- While `maxChars` exceeds the whole document's length, the loop of
`generate_chunked` never closes a chunk. -/
theorem chunkFold_nosplit (g : MarkdownGenerator) (m : Nat)
    (hm : (generate g).length < m) :
    ∀ (rest proc : List FileContent) (st : ChunkSt), proc ++ rest = g.files →
      NoSplitInv g proc st →
      NoSplitInv g (proc ++ rest)
        (rest.foldl (chunkStep g m (headerWithSection g).length) st) := by
  intro rest
  induction rest with
  | nil => intro proc st _ h; simpa using h
  | cons fc rest' ih =>
    intro proc st hsplit h
    obtain ⟨hch, hparts, hsz⟩ := h
    have hbound : st.size + (fmBlock fc).length ≤ (generate g).length := by
      rw [hsz, generate_length, ← hsplit]
      have hmono : ((proc.map fmBlock).map String.length).sum ≤
          ((proc.map fmBlock).map (fun b => 1 + b.length)).sum := by
        apply List.sum_le_sum
        intro b _
        omega
      simp only [List.map_append, List.map_cons, List.sum_append, List.sum_cons]
      omega
    have hnov : ¬(m < st.size + (fmBlock fc).length ∧ st.parts ≠ []) := by
      intro hc
      omega
    have hstep := chunkStep_eq_append g m (headerWithSection g).length st fc hnov
    show NoSplitInv g (proc ++ fc :: rest')
        ((fc :: rest').foldl (chunkStep g m (headerWithSection g).length) st)
    rw [List.foldl_cons, hstep]
    have hnext : NoSplitInv g (proc ++ [fc])
        ⟨st.chunks, st.parts ++ [fmBlock fc], st.size + (fmBlock fc).length⟩ := by
      refine ⟨hch, ?_, ?_⟩
      · rw [hparts]
        simp
      · rw [hsz]
        simp [Nat.add_assoc]
    have := ih (proc ++ [fc]) _ (by simpa using hsplit) hnext
    simpa using this

/-- Claim C6: if `maxChars` is strictly larger than the length of the whole
`generate()` document, `generate_chunked` returns exactly one chunk, equal
character for character to that document. -/
theorem claim_C6_roundtrip (g : MarkdownGenerator) (m : Nat)
    (hm : (generate g).length < m) :
    generate_chunked g m = [generate g] := by
  have h0 : NoSplitInv g [] ⟨[], [headerWithSection g], (headerWithSection g).length⟩ :=
    ⟨rfl, rfl, by simp⟩
  have hf := chunkFold_nosplit g m hm g.files [] _ rfl h0
  simp only [List.nil_append] at hf
  obtain ⟨hch, hparts, _⟩ := hf
  simp only [generate_chunked]
  rw [if_pos (by rw [hparts]; exact List.cons_ne_nil _ _)]
  rw [hch, hparts, ← generate_eq_join]
  rfl

/-- `lexLt` is irreflexive. -/
theorem lexLt_irrefl : ∀ l : List Char, lexLt l l = false
  | [] => rfl
  | c :: rest => by
    simp only [lexLt, lt_irrefl, if_false]
    exact lexLt_irrefl rest

/-- `lexLt` is asymmetric. -/
theorem lexLt_asymm : ∀ a b : List Char, lexLt a b = true → lexLt b a = false
  | [], [] => by simp [lexLt]
  | [], _ :: _ => by simp [lexLt]
  | _ :: _, [] => by simp [lexLt]
  | a :: as, b :: bs => by
    intro h
    simp only [lexLt] at h ⊢
    rcases lt_trichotomy a b with hab | hab | hab
    · rw [if_neg (lt_asymm hab), if_pos hab]
    · subst hab
      rw [if_neg (lt_irrefl a), if_neg (lt_irrefl a)] at h ⊢
      exact lexLt_asymm as bs h
    · rw [if_neg (lt_asymm hab), if_pos hab] at h
      exact absurd h (by simp)

/-- Two lists neither of which is below the other are equal. -/
theorem lexLt_eq_of_not : ∀ a b : List Char,
    lexLt a b = false → lexLt b a = false → a = b
  | [], [] => fun _ _ => rfl
  | [], _ :: _ => by simp [lexLt]
  | _ :: _, [] => by simp [lexLt]
  | a :: as, b :: bs => by
    intro h1 h2
    simp only [lexLt] at h1 h2
    rcases lt_trichotomy a b with hab | hab | hab
    · rw [if_pos hab] at h1
      exact absurd h1 (by simp)
    · subst hab
      rw [if_neg (lt_irrefl a), if_neg (lt_irrefl a)] at h1 h2
      rw [lexLt_eq_of_not as bs h1 h2]
    · rw [if_pos hab] at h2
      exact absurd h2 (by simp)

/-- `lexLt` is transitive. -/
theorem lexLt_trans : ∀ a b c : List Char,
    lexLt a b = true → lexLt b c = true → lexLt a c = true
  | [], b, c => by
    intro h1 h2
    cases c with
    | nil =>
      cases b with
      | nil => simpa [lexLt] using h1
      | cons x xs => simpa [lexLt] using h2
    | cons x xs => simp [lexLt]
  | _ :: _, [], _ => by
    intro h1 _
    simpa [lexLt] using h1
  | _ :: _, _ :: _, [] => by
    intro _ h2
    simpa [lexLt] using h2
  | a :: as, b :: bs, c :: cs => by
    intro h1 h2
    simp only [lexLt] at h1 h2 ⊢
    rcases lt_trichotomy a b with hab | hab | hab
    · rcases lt_trichotomy b c with hbc | hbc | hbc
      · rw [if_pos (lt_trans hab hbc)]
      · subst hbc
        rw [if_pos hab]
      · rw [if_neg (lt_asymm hbc), if_pos hbc] at h2
        exact absurd h2 (by simp)
    · subst hab
      rw [if_neg (lt_irrefl a), if_neg (lt_irrefl a)] at h1
      rcases lt_trichotomy a c with hac | hac | hac
      · rw [if_pos hac]
      · subst hac
        rw [if_neg (lt_irrefl a), if_neg (lt_irrefl a)] at h2 ⊢
        exact lexLt_trans as bs cs h1 h2
      · rw [if_neg (lt_asymm hac), if_pos hac] at h2
        exact absurd h2 (by simp)
    · rw [if_neg (lt_asymm hab), if_pos hab] at h1
      exact absurd h1 (by simp)

instance : IsTotal (List String) keyLe :=
  ⟨fun a b => by
    by_cases h : lexLt (fileKey b) (fileKey a) = true
    · right
      exact lexLt_asymm _ _ h
    · left
      exact Bool.eq_false_iff.mpr h⟩

instance : IsTrans (List String) keyLe :=
  ⟨fun a b c h1 h2 => by
    show lexLt (fileKey c) (fileKey a) = false
    cases hx : lexLt (fileKey c) (fileKey a) with
    | false => rfl
    | true =>
      exfalso
      have h1' : lexLt (fileKey b) (fileKey a) = false := h1
      have h2' : lexLt (fileKey c) (fileKey b) = false := h2
      cases hy : lexLt (fileKey a) (fileKey b) with
      | true =>
        have := lexLt_trans _ _ _ hx hy
        rw [h2'] at this
        exact absurd this (by simp)
      | false =>
        have heq := lexLt_eq_of_not _ _ hy h1'
        rw [heq] at hx
        rw [h2'] at hx
        exact absurd hx (by simp)⟩

/-- In a `keyLe`-sorted list, position order coincides with strict key order
wherever the keys differ. -/
theorem sorted_key_iff {l : List (List String)} (hs : List.Sorted keyLe l)
    (i j : Nat) (hi : i < l.length) (hj : j < l.length)
    (hk : fileKey (l.get ⟨i, hi⟩) ≠ fileKey (l.get ⟨j, hj⟩)) :
    i < j ↔ lexLt (fileKey (l.get ⟨i, hi⟩)) (fileKey (l.get ⟨j, hj⟩)) = true := by
  constructor
  · intro hij
    have hrel : keyLe (l.get ⟨i, hi⟩) (l.get ⟨j, hj⟩) :=
      hs.rel_get_of_lt (show (⟨i, hi⟩ : Fin l.length) < ⟨j, hj⟩ from hij)
    have hrel' : lexLt (fileKey (l.get ⟨j, hj⟩)) (fileKey (l.get ⟨i, hi⟩)) = false := hrel
    cases hz : lexLt (fileKey (l.get ⟨i, hi⟩)) (fileKey (l.get ⟨j, hj⟩)) with
    | true => rfl
    | false => exact absurd (lexLt_eq_of_not _ _ hz hrel') hk
  · intro hlt
    rcases lt_trichotomy i j with h | h | h
    · exact h
    · subst h
      exact absurd rfl hk
    · have hrel : keyLe (l.get ⟨j, hj⟩) (l.get ⟨i, hi⟩) :=
        hs.rel_get_of_lt (show (⟨j, hj⟩ : Fin l.length) < ⟨i, hi⟩ from h)
      have hrel' : lexLt (fileKey (l.get ⟨i, hi⟩)) (fileKey (l.get ⟨j, hj⟩)) = false := hrel
      rw [hrel'] at hlt
      exact absurd hlt (by simp)

/-- Order of the assembled `discover_files` output away from the promoted
readme slot. -/
theorem assemble_order (ro : Option (List String)) (fs : List (List String))
    (i j : Nat)
    (hi : i < (assembleDiscover (ro, fs)).length)
    (hj : j < (assembleDiscover (ro, fs)).length)
    (hri : some ((assembleDiscover (ro, fs)).get ⟨i, hi⟩) ≠ ro)
    (hrj : some ((assembleDiscover (ro, fs)).get ⟨j, hj⟩) ≠ ro)
    (hk : fileKey ((assembleDiscover (ro, fs)).get ⟨i, hi⟩) ≠
          fileKey ((assembleDiscover (ro, fs)).get ⟨j, hj⟩)) :
    i < j ↔ lexLt (fileKey ((assembleDiscover (ro, fs)).get ⟨i, hi⟩))
        (fileKey ((assembleDiscover (ro, fs)).get ⟨j, hj⟩)) = true := by
  have hsorted : List.Sorted keyLe (List.insertionSort keyLe fs) :=
    List.sorted_insertionSort keyLe fs
  cases ro with
  | none => exact sorted_key_iff hsorted i j hi hj hk
  | some r =>
    cases i with
    | zero => exact absurd rfl hri
    | succ i' =>
      cases j with
      | zero => exact absurd rfl hrj
      | succ j' =>
        have hi' : i' < (List.insertionSort keyLe fs).length := by
          simpa [assembleDiscover] using hi
        have hj' : j' < (List.insertionSort keyLe fs).length := by
          simpa [assembleDiscover] using hj
        have := sorted_key_iff hsorted i' j' hi' hj' (by simpa [assembleDiscover] using hk)
        simpa [assembleDiscover, Nat.succ_lt_succ_iff] using this

/-- Claim C1 (amended): in the `discover_files` output, for any two entries
neither of which occupies the promoted readme slot (the slot selected by the
loop: `README.md` at the root when encountered, otherwise the first root
readme-like file), position order coincides with strict order of the
lower-cased relative paths whenever those keys differ; consequently
non-promoted root readme-like files stay in their normal sorted position.
The original claim, which restricted the promoted slot to `README.md` alone,
fails: see the counterexample. -/
theorem claim_C1_amended_order (rules : Rules) (root : List FSEntry) (i j : Nat)
    (hi : i < (discover_files rules root).length)
    (hj : j < (discover_files rules root).length)
    (hri : some ((discover_files rules root).get ⟨i, hi⟩) ≠ (discoverPass rules root).1)
    (hrj : some ((discover_files rules root).get ⟨j, hj⟩) ≠ (discoverPass rules root).1)
    (hk : fileKey ((discover_files rules root).get ⟨i, hi⟩) ≠
          fileKey ((discover_files rules root).get ⟨j, hj⟩)) :
    i < j ↔ lexLt (fileKey ((discover_files rules root).get ⟨i, hi⟩))
        (fileKey ((discover_files rules root).get ⟨j, hj⟩)) = true :=
  assemble_order (discoverPass rules root).1 (discoverPass rules root).2
    i j hi hj hri hrj hk

/-- Claim C1 counterexample: with no `README.md` present, the root file
`README.txt` is promoted to the front although its lower-cased relative path
is not lexicographically less than that of `a.py`; both files differ from a
root-level `README.md`, so the claimed iff fails at this input. -/
theorem claim_C1_counterexample :
    discover_files defaultRules [FSEntry.file "a.py", FSEntry.file "README.txt"]
        = [["README.txt"], ["a.py"]] ∧
    lexLt (fileKey ["README.txt"]) (fileKey ["a.py"]) = false :=
  ⟨rfl, rfl⟩

/-- Claim C1 witness: the amended order theorem applied to a concrete
two-file repository. -/
theorem claim_C1_witness :
    (0 < 1 ↔ lexLt
      (fileKey ((discover_files defaultRules
        [FSEntry.file "b.py", FSEntry.file "a.py"]).get ⟨0, by decide⟩))
      (fileKey ((discover_files defaultRules
        [FSEntry.file "b.py", FSEntry.file "a.py"]).get ⟨1, by decide⟩)) = true) :=
  claim_C1_amended_order defaultRules [FSEntry.file "b.py", FSEntry.file "a.py"]
    0 1 (by decide) (by decide) (by decide) (by decide) (by decide)

/-- Rules as built for a run with PDF support disabled and no custom
extensions: the default criteria with some excluded-directory set. -/
def noPdfRules (excl : List String) : Rules :=
  { textExtensions := DEFAULT_TEXT_EXTENSIONS
    includeFilenames := DEFAULT_INCLUDE_FILENAMES
    excludeDirs := excl
    includePdf := false }

/-- Under the default criteria, an included file never carries the `.pdf`
extension. -/
theorem isTextFile_noPdf (excl : List String) (name : String)
    (h : isTextFile (noPdfRules excl) name = true) : suffixLower name ≠ ".pdf" := by
  intro hpdf
  simp only [isTextFile, noPdfRules, Bool.or_eq_true, Bool.and_eq_true] at h
  have hfn : ∀ x ∈ DEFAULT_INCLUDE_FILENAMES, suffixLower x ≠ ".pdf" := by decide
  rcases h with (h | h) | ⟨hsuf, h⟩
  · exact hfn name (by simpa [List.contains, List.elem_eq_mem, decide_eq_true_eq] using h) hpdf
  · rw [hpdf] at h
    have hno : (".pdf" : String) ∉ DEFAULT_TEXT_EXTENSIONS := by decide
    exact hno (by simpa [List.contains, List.elem_eq_mem, decide_eq_true_eq] using h)
  · have hsuf' : pySuffix name = "" := by simpa [beq_iff_eq] using hsuf
    rw [show suffixLower name = lowerStr (pySuffix name) from rfl, hsuf'] at hpdf
    exact absurd hpdf (by decide)

/-- The accumulation loop of `discover_files` only ever stores root-level
readme-like paths in the readme slot, and only adds to the file list paths
that are root readme-like or pass `_is_text_file`. -/
theorem discoverLoop_spec (rules : Rules) :
    ∀ (ps : List (List String)) (readme : Option (List String))
      (files : List (List String)),
      (∀ q, readme = some q → isRootReadme q = true) →
      (∀ q ∈ files, isRootReadme q = true ∨ isTextFile rules (lastName q) = true) →
      (∀ q, (discoverLoop rules ps readme files).1 = some q → isRootReadme q = true) ∧
      (∀ q ∈ (discoverLoop rules ps readme files).2,
        isRootReadme q = true ∨ isTextFile rules (lastName q) = true) := by
  intro ps
  induction ps with
  | nil =>
    intro readme files h1 h2
    exact ⟨h1, h2⟩
  | cons p rest ih =>
    intro readme files h1 h2
    by_cases hr : isRootReadme p = true
    · cases readme with
      | none =>
        simp only [discoverLoop, hr, if_true]
        exact ih (some p) files
          (fun q hq => by rw [Option.some_inj.mp hq] at hr; exact hr) h2
      | some r =>
        by_cases hmd : (lowerStr (lastName p) == "readme.md") = true
        · simp only [discoverLoop, hr, if_true, hmd]
          exact ih (some p) files
            (fun q hq => by rw [Option.some_inj.mp hq] at hr; exact hr) h2
        · simp only [discoverLoop, hr, if_true, hmd, if_false]
          refine ih (some r) (files ++ [p]) (fun q hq => h1 q hq) ?_
          intro q hq
          rcases List.mem_append.mp hq with hq | hq
          · exact h2 q hq
          · rw [List.mem_singleton.mp hq]
            exact Or.inl hr
    · by_cases ht : isTextFile rules (lastName p) = true
      · simp only [discoverLoop, hr, if_false, ht, if_true]
        refine ih readme (files ++ [p]) h1 ?_
        intro q hq
        rcases List.mem_append.mp hq with hq | hq
        · exact h2 q hq
        · rw [List.mem_singleton.mp hq]
          exact Or.inr ht
      · simp only [discoverLoop, hr, if_false, ht]
        exact ih readme files h1 h2

/-- Everything `discover_files` returns is root readme-like or passes
`_is_text_file`. -/
theorem discover_mem_spec (rules : Rules) (root : List FSEntry) :
    ∀ p ∈ discover_files rules root,
      isRootReadme p = true ∨ isTextFile rules (lastName p) = true := by
  intro p hp
  have hspec := discoverLoop_spec rules (walkEntries rules [] root) none []
    (by intro q hq; cases hq) (by intro q hq; cases hq)
  unfold discover_files discoverPass at hp
  rcases hres : discoverLoop rules (walkEntries rules [] root) none [] with ⟨ro, fs⟩
  rw [hres] at hp hspec
  cases ro with
  | some r =>
    simp only [assembleDiscover] at hp
    rcases List.mem_cons.mp hp with rfl | hp
    · exact Or.inl (hspec.1 p rfl)
    · exact hspec.2 p ((List.mem_insertionSort keyLe).mp hp)
  | none =>
    simp only [assembleDiscover] at hp
    exact hspec.2 p ((List.mem_insertionSort keyLe).mp hp)

/-- Shape of a `_build_tree` output line: a directory line (ending in `/`)
or a connector line for a file that passed the display guard. -/
def treeFileLine (rules : Rules) (line : String) : Prop :=
  (∃ p n, line = p ++ n ++ "/") ∨
  (∃ p n, (line = p ++ "├── " ++ n ∨ line = p ++ "└── " ++ n) ∧ showFile rules n = true)

/-- `_build_tree` defers entirely to the row rendering of its prepared
entries (or prints nothing at the depth limit). -/
theorem buildTree_subset (rules : Rules) (maxD : Option Nat) (ch : List FSEntry)
    (pre : String) (d : Nat) :
    ∀ line ∈ buildTree rules maxD ch pre d,
      line ∈ renderRow rules maxD (treeEntries rules ch) pre d := by
  intro line h
  rw [buildTree] at h
  split at h
  · exact absurd h (by simp)
  · exact h

/-- Every line the row rendering emits is a directory line or a guarded file
line (induction on the total entry count). -/
theorem renderRow_lines (rules : Rules) (maxD : Option Nat) :
    ∀ (N : Nat) (l : List FSEntry) (pre : String) (d : Nat), entriesSize l ≤ N →
      ∀ line ∈ renderRow rules maxD l pre d, treeFileLine rules line := by
  intro N
  induction N with
  | zero =>
    intro l pre d hle line hmem
    cases l with
    | nil =>
      rw [renderRow] at hmem
      exact absurd hmem (by simp)
    | cons e tail =>
      exfalso
      have := entrySize_pos e
      simp [entriesSize] at hle
      omega
  | succ N ih =>
    intro l pre d hle line hmem
    cases l with
    | nil =>
      rw [renderRow] at hmem
      exact absurd hmem (by simp)
    | cons e tail =>
      cases e with
      | dir n ch =>
        have hch : entriesSize (treeEntries rules ch) ≤ N := by
          have h1 := entriesSize_treeEntries_le rules ch
          simp [entriesSize, entrySize] at hle
          omega
        cases tail with
        | nil =>
          rw [renderRow] at hmem
          rcases List.mem_cons.mp hmem with rfl | hmem
          · exact Or.inl ⟨pre ++ "└── ", n, rfl⟩
          · exact ih _ _ _ hch line (buildTree_subset rules maxD ch _ _ line hmem)
        | cons e2 rest =>
          have hrest : entriesSize (e2 :: rest) ≤ N := by
            simp [entriesSize, entrySize] at hle ⊢
            omega
          rw [renderRow] at hmem
          rcases List.mem_append.mp hmem with hmem | hmem
          · rcases List.mem_cons.mp hmem with rfl | hmem
            · exact Or.inl ⟨pre ++ "├── ", n, rfl⟩
            · exact ih _ _ _ hch line (buildTree_subset rules maxD ch _ _ line hmem)
          · exact ih _ _ _ hrest line hmem
      | file n =>
        cases tail with
        | nil =>
          rw [renderRow] at hmem
          by_cases hs : showFile rules n = true
          · rw [if_pos hs] at hmem
            rw [List.mem_singleton.mp hmem]
            exact Or.inr ⟨pre, n, Or.inr rfl, hs⟩
          · rw [if_neg hs] at hmem
            exact absurd hmem (by simp)
        | cons e2 rest =>
          have hrest : entriesSize (e2 :: rest) ≤ N := by
            simp [entriesSize, entrySize] at hle ⊢
            omega
          rw [renderRow] at hmem
          rcases List.mem_append.mp hmem with hmem | hmem
          · by_cases hs : showFile rules n = true
            · rw [if_pos hs] at hmem
              rw [List.mem_singleton.mp hmem]
              exact Or.inr ⟨pre, n, Or.inl rfl, hs⟩
            · rw [if_neg hs] at hmem
              exact absurd hmem (by simp)
          · exact ih _ _ _ hrest line hmem

/-- Every line `_build_tree` emits is a directory line or a guarded file
line. -/
theorem buildTree_lines (rules : Rules) (maxD : Option Nat) (l : List FSEntry)
    (pre : String) (d : Nat) :
    ∀ line ∈ buildTree rules maxD l pre d, treeFileLine rules line :=
  fun line h =>
    renderRow_lines rules maxD (entriesSize (treeEntries rules l)) _ pre d
      (Nat.le_refl _) line (buildTree_subset rules maxD l pre d line h)

/-- Claim C7 (amended): with PDF support disabled (default criteria, any
excluded-directory set), no `.pdf` file is shown in the rendered tree: every
tree line is a directory line (ending in `/`) or a file line whose name's
lower-cased extension is not `.pdf`.  In the discovered file list the
exclusion holds with one exception the original claim missed: a path whose
lower-cased extension is `.pdf` can appear only as a root-level file whose
name starts with `readme` case-insensitively (the readme-promotion path
bypasses the extension filter). -/
theorem claim_C7_pdf_excluded (excl : List String) (maxD : Option Nat)
    (rootName : String) (root : List FSEntry) :
    (∀ line ∈ treeLines (noPdfRules excl) maxD rootName root,
       (∃ p n, line = p ++ n ++ "/") ∨
       (∃ p n, (line = p ++ "├── " ++ n ∨ line = p ++ "└── " ++ n) ∧
         suffixLower n ≠ ".pdf")) ∧
    (∀ p ∈ discover_files (noPdfRules excl) root,
       suffixLower (lastName p) = ".pdf" →
       p.length = 1 ∧ startsList (lowerChars (lastName p)) "readme".data = true) := by
  constructor
  · intro line hline
    rcases List.mem_cons.mp hline with rfl | hline
    · exact Or.inl ⟨"", rootName, by rw [str_empty_append]⟩
    · rcases buildTree_lines (noPdfRules excl) maxD root "" 0 line hline with
        h | ⟨p, n, hform, hshow⟩
      · exact Or.inl h
      · refine Or.inr ⟨p, n, hform, ?_⟩
        have htf : isTextFile (noPdfRules excl) n = true := by
          simpa [showFile, noPdfRules] using hshow
        exact isTextFile_noPdf excl n htf
  · intro p hp hpdf
    rcases discover_mem_spec _ root p hp with h | h
    · simp only [isRootReadme, Bool.and_eq_true, beq_iff_eq] at h
      exact ⟨by simpa using h.2, h.1⟩
    · exact absurd hpdf (isTextFile_noPdf excl _ h)

/-- Claim C7 counterexample: with PDF support disabled and default rules, a
root file `readme.pdf` — whose lower-cased extension is `.pdf` — still
appears in the `discover_files` output, contradicting "appears neither in
the tree nor in the file list". -/
theorem claim_C7_counterexample :
    discover_files defaultRules [FSEntry.file "readme.pdf"] = [["readme.pdf"]] ∧
    suffixLower "readme.pdf" = ".pdf" ∧
    defaultRules.includePdf = false :=
  ⟨rfl, rfl, rfl⟩

/-- Claim C2 (code bug): on a root whose `iterdir` order yields `README.txt`
before `README.md`, the `.txt` file matches the configured `.txt` extension
criterion yet is silently dropped: the loop first stores `README.txt` in the
readme slot and then overwrites the slot with `README.md` without moving the
displaced file back into the list. -/
theorem claim_C2_readme_txt_dropped :
    discover_files defaultRules [FSEntry.file "README.txt", FSEntry.file "README.md"]
        = [["README.md"]] ∧
    isTextFile defaultRules "README.txt" = true ∧
    ["README.txt"] ∉ discover_files defaultRules
        [FSEntry.file "README.txt", FSEntry.file "README.md"] :=
  ⟨rfl, rfl, by decide⟩

/-- Claim C10 (code bug): a root file `readme.bin` bypasses `_is_text_file`
and is included when it is the only readme-like file, but the same file is
silently dropped when `README.md` follows it in walk order, so it does not
always appear in the output. -/
theorem claim_C10_readme_bin :
    discover_files defaultRules [FSEntry.file "readme.bin"] = [["readme.bin"]] ∧
    isTextFile defaultRules "readme.bin" = false ∧
    discover_files defaultRules [FSEntry.file "readme.bin", FSEntry.file "README.md"]
        = [["README.md"]] ∧
    ["readme.bin"] ∉ discover_files defaultRules
        [FSEntry.file "readme.bin", FSEntry.file "README.md"] :=
  ⟨rfl, rfl, rfl, by decide⟩

/-- Claim C8 (code bug): `__init__` replaces the default excluded-directory
set with the user-supplied one (`exclude_dirs or DEFAULT`) instead of merging
them, so with `exclude_dirs={"custom"}` the default `.git` entry is no longer
excluded and a file under `.git` is discovered. -/
theorem claim_C8_defaults_replaced :
    (mkFileDiscovery none none (some ["custom"]) false none).excludeDirs = ["custom"] ∧
    ".git" ∈ DEFAULT_EXCLUDE_DIRS ∧
    discover_files (mkFileDiscovery none none (some ["custom"]) false none)
        [FSEntry.dir ".git" [FSEntry.file "x.py"], FSEntry.file "a.py"]
      = [[".git", "x.py"], ["a.py"]] :=
  ⟨rfl, by decide, rfl⟩

/-- A one-file generator used for the concrete chunking inputs. -/
def sampleFile : FileContent :=
  { name := "a", relative_path := "a", content := "", language := "", is_pdf := false }

/-- A generator holding `sampleFile`, with tree and table of contents off. -/
def sampleGen : MarkdownGenerator :=
  { repo_name := "r", include_tree := false, include_toc := false, tree := ""
    files := [sampleFile] }

/-- Claim C4 (code bug): when the first file's block together with the header
exceeds `maxChars`, the loop resets the current chunk to the continuation
header without having saved the bare header chunk, so the emitted first (and
only) chunk begins with the continuation header and the original header
(title, tree, table of contents) is discarded — although a file was added. -/
theorem claim_C4_header_discarded :
    generate_chunked sampleGen 10 =
      ["# Repository: r (continued)\n\n## File Contents (continued)\n\n### a\n**Path:** `a`\n\n```\n\n```\n"] ∧
    headerWithSection sampleGen = "# Repository: r\n\n## File Contents\n" ∧
    startsList
      ("# Repository: r (continued)\n\n## File Contents (continued)\n\n### a\n**Path:** `a`\n\n```\n\n```\n").data
      (headerWithSection sampleGen).data = false :=
  ⟨rfl, rfl, rfl⟩

/-- Claim C5 (code bug): the loop's size counter omits the newline that
`"\n".join` inserts between the header and each block, so a chunk can exceed
`maxChars` even though no single file's block alone does: with `maxChars=64`
the emitted chunk has 65 characters while its only file block has 30. -/
theorem claim_C5_chunk_over_limit :
    (generate_chunked sampleGen 64).map String.length = [65] ∧
    (fmBlock sampleFile).length = 30 ∧
    (64 : Nat) < 65 :=
  ⟨rfl, rfl, by decide⟩

/-- Claim C6 witness: the round-trip theorem at a concrete one-file
generator. -/
theorem claim_C6_witness : generate_chunked sampleGen 1000 = [generate sampleGen] :=
  claim_C6_roundtrip sampleGen 1000 (by decide)

/-- Claim C9 (amended): a discovered file that exceeds the configured maximum
size receives the size placeholder as its content whenever it is handled by
the text-decoding path; the PDF-extraction path performs no size check, so
the guarantee does not extend to it (see the counterexample). -/
theorem claim_C9_too_large_placeholder (maxFS : Nat) (pdfPresent : Bool)
    (f : SrcFile) (relPath : String)
    (hex : f.fexists = true) (hif : f.isFile = true) (hstat : f.statOk = true)
    (hsz : maxFS < f.size)
    (hnotpdf : ¬(suffixLower f.name = ".pdf" ∧ pdfPresent = true)) :
    (resolveFile (some maxFS) pdfPresent f relPath).content =
      "[File too large: " ++ toString f.size ++ " bytes]" := by
  have hguard : (suffixLower f.name == ".pdf" && pdfPresent) = false := by
    cases hp : suffixLower f.name == ".pdf" with
    | false => rfl
    | true =>
      cases hq : pdfPresent with
      | false => rfl
      | true => exact absurd ⟨by simpa [beq_iff_eq] using hp, hq⟩ hnotpdf
  simp only [resolveFile, hguard, Bool.false_eq_true, if_false, read_file,
    hex, hif, hstat, Bool.not_true, if_pos hsz]

/-- Claim C9 witness: the size placeholder at a concrete oversized text
file. -/
theorem claim_C9_witness :
    (resolveFile (some 5) false
        { name := "big.txt", fexists := true, isFile := true, statOk := true,
          size := 10, readResult := "REAL", pdfExtract := "PDFTEXT",
          mimeGuess := none } "big.txt").content = "[File too large: 10 bytes]" :=
  claim_C9_too_large_placeholder 5 false _ "big.txt" rfl rfl rfl (by decide) (by decide)

/-- Claim C9 counterexample: an oversized PDF handled by the PDF-extraction
path keeps the extractor's output as its content, not the size placeholder,
so the original claim's "whether text-decoding or PDF-extraction path" part
fails. -/
theorem claim_C9_counterexample :
    (resolveFile (some 5) true
        { name := "doc.pdf", fexists := true, isFile := true, statOk := true,
          size := 10, readResult := "RAW", pdfExtract := "PDFTEXT",
          mimeGuess := none } "doc.pdf").content = "PDFTEXT" ∧
    (5 : Nat) < 10 ∧
    "PDFTEXT" ≠ "[File too large: 10 bytes]" :=
  ⟨rfl, by decide, by decide⟩
